import Mathlib

/-!
Shallow embedding of the simple-xml crate (src/lib.rs): the node tree model,
the recursive-descent parser `load_from_slice`, root validation, and the two
serializers.  Rust strings are modelled as `List Char` (the code's byte-index
slicing coincides with char indexing on the inputs considered; char-boundary
panics of multi-byte text are outside the model).  Rust `HashMap` is modelled
as an association list with insert-or-replace semantics; its iteration order
is modelled as the list order (the claims proved below are insensitive to the
order in which a map iterates).  A Rust panic (out-of-range or reversed slice
index, `unwrap` on `None`) is modelled by the explicit outcome `Outcome.panic`.
-/

namespace SimpleXml

abbrev LC := List Char

def toL (s : String) : LC := s.toList

/-- The node tree: `tag`, `attributes` (map name → value), `nodes`
(map tag → ordered group of children, as in the Rust `HashMap<String, Vec<Node>>`),
and text `content`. -/
inductive Node : Type where
  | mk (tag : LC) (attributes : List (LC × LC))
       (nodes : List (LC × List Node)) (content : LC)

def Node.tag : Node → LC
  | .mk t _ _ _ => t

def Node.attributes : Node → List (LC × LC)
  | .mk _ a _ _ => a

def Node.nodes : Node → List (LC × List Node)
  | .mk _ _ n _ => n

def Node.content : Node → LC
  | .mk _ _ _ c => c

/-- The parser's `Payload`: prolog text before the element, the optional
element, and the unconsumed remainder of the input slice. -/
structure Payload where
  prolog : LC
  node : Option Node
  remaining : LC

/-- The crate's `Error` enum.  The `std::io::Error` payload of `IOError` is
irrelevant to parsing and carried as a unit. -/
inductive Error : Type where
  | IOError : Error
  | ContentOutsideRoot (pos : Nat) : Error
  | MissingClosingTag (tag : LC) (pos : Nat) : Error
  | MissingClosingDelimiter (pos : Nat) : Error
  | MissingAttributeValue (token : LC) (pos : Nat) : Error
  | MissingQuotes (token : LC) (pos : Nat) : Error
deriving DecidableEq

/-- Outcome of running a fallible Rust function: a panic (out-of-bounds or
reversed slice range, `unwrap` of `None`), a returned `Err`, or `Ok`. -/
inductive Outcome (α : Type) : Type where
  | panic : Outcome α
  | error (e : Error) : Outcome α
  | ok (a : α) : Outcome α

/-- The four whitespace characters recognised by the model's `trim`
(the ASCII subset of Rust's `char::is_whitespace`; no input in this
development involves non-ASCII whitespace). -/
def isWs (c : Char) : Bool := c = ' ' || c = '\t' || c = '\n' || c = '\r'

/-- Rust `str::trim`. -/
def trim (s : LC) : LC := ((s.dropWhile isWs).reverse.dropWhile isWs).reverse

/-- `leadsWith pat s`: `pat` occurs at the start of `s`. -/
def leadsWith : LC → LC → Bool
  | [], _ => true
  | _ :: _, [] => false
  | p :: ps, c :: cs => if p = c then leadsWith ps cs else false

/-- Rust `str::find` with a string pattern: byte index of the first
occurrence. -/
def findSub : LC → LC → Option Nat
  | [], pat => if leadsWith pat [] then some 0 else none
  | c :: rest, pat =>
    if leadsWith pat (c :: rest) then some 0
    else (findSub rest pat).map (· + 1)

/-- Rust range slicing `&s[a..b]`: `none` models the panic when the range is
reversed or out of bounds. -/
def sliceR (s : LC) (a b : Nat) : Option LC :=
  if a ≤ b ∧ b ≤ s.length then some ((s.drop a).take (b - a)) else none

/-- Rust `str::ends_with` for a one-character pattern. -/
def endsW (s : LC) (pat : LC) : Bool := leadsWith pat.reverse s.reverse

/-- Modelled from the spec: the crate's `split_unquoted` module (declared as
`mod split_unquoted` in src/lib.rs but its file is not present under src/).
Per spec §4.1: split the text on the separator character, except that a run
enclosed in double quotes is unsplittable (quotes are kept in the tokens, no
escaping, an unterminated quote extends the run to the end of the input). -/
def splitUnquotedAux (sep : Char) : LC → Bool → LC → List LC
  | [], _, acc => [acc.reverse]
  | c :: rest, inQ, acc =>
    if c = '"' then splitUnquotedAux sep rest (!inQ) (c :: acc)
    else if c = sep && !inQ then acc.reverse :: splitUnquotedAux sep rest inQ []
    else splitUnquotedAux sep rest inQ (c :: acc)

def splitUnquoted (s : LC) (sep : Char) : List LC :=
  splitUnquotedAux sep s false []

/-- Rust `HashMap::insert` on the attribute map: replace the value of an
existing key, else add the binding. -/
def insertAttr : List (LC × LC) → LC → LC → List (LC × LC)
  | [], k, v => [(k, v)]
  | (k0, v0) :: rest, k, v =>
    if k0 = k then (k0, v) :: rest else (k0, v0) :: insertAttr rest k v

/-- The attribute loop of `load_from_slice` (src/lib.rs lines 139-161):
stop at a lone `/` token; a token without `=` is `MissingAttributeValue`;
the value must start and end with `"` (checked via `&v[1..2]` and
`&v[v.len()-1..]`, which panic on too-short values) and is stored with the
quotes stripped via `&v[2..v.len()-1]` (panics when the value part is a
lone `"`). -/
def parseAttrs : List LC → List (LC × LC) → Outcome (List (LC × LC))
  | [], attrs => .ok attrs
  | part :: rest, attrs =>
    if part = ['/'] then .ok attrs
    else
      match findSub part ['='] with
      | none => .error (.MissingAttributeValue part 999)
      | some i =>
        let v := part.drop i
        match sliceR v 1 2 with
        | none => .panic
        | some w =>
          if w = ['"'] then
            if v.drop (v.length - 1) = ['"'] then
              match sliceR v 2 (v.length - 1) with
              | none => .panic
              | some value => parseAttrs rest (insertAttr attrs (part.take i) value)
            else .error (.MissingQuotes part 999)
          else .error (.MissingQuotes part 999)

/-- `nodes.entry(tag).or_insert(Vec::new()).push(node)`: append the node to
its tag's group, creating the group at the end of the map if absent. -/
def addToGroup : List (LC × List Node) → LC → Node → List (LC × List Node)
  | [], t, n => [(t, [n])]
  | (k, v) :: rest, t, n =>
    if k = t then (k, v ++ [n]) :: rest else (k, v) :: addToGroup rest t n

/-- `HashMap::get` on the children map. -/
def lookupGroup : List (LC × List Node) → LC → Option (List Node)
  | [], _ => none
  | (k, v) :: rest, t => if k = t then some v else lookupGroup rest t

def joinL : List LC → LC
  | [] => []
  | x :: xs => x ++ joinL xs

/-- The `while buf.len() != 0` loop of `load_from_slice` (src/lib.rs lines
189-210), including the post-loop `content.push_str(buf)`, parameterised by
the parsing function used on each iteration.  The Rust pointer comparison
`payload.remaining.as_ptr() == buf.as_ptr()` is modelled as a length
comparison: `remaining` is always a suffix of `buf`, and a suffix has the
same start pointer exactly when it has the same length. -/
def innerLoop (parse : LC → Outcome Payload) :
    Nat → LC → LC → List (LC × List Node) →
    Outcome (LC × List (LC × List Node))
  | 0, _, _, _ => .panic
  | fuel + 1, buf, content, nodes =>
    if buf.length = 0 then .ok (content ++ buf, nodes)
    else
      match parse buf with
      | .panic => .panic
      | .error e => .error e
      | .ok pl =>
        let nodes' := match pl.node with
          | some n => addToGroup nodes n.tag n
          | none => nodes
        if pl.remaining.length = buf.length then .ok (content ++ buf, nodes')
        else innerLoop parse fuel pl.remaining (content ++ pl.prolog) nodes'

/-- `load_from_slice` (src/lib.rs lines 109-224), fuel-indexed.  The fuel
strictly exceeds every recursion depth reached from `load_from_slice` below,
so the fuel-0 `.panic` is never the value actually observed there. -/
def loadAux : Nat → LC → Outcome Payload
  | 0, _ => .panic
  | fuel + 1, s =>
    match findSub s ['<'] with
    | none => .ok ⟨[], none, s⟩
    | some p =>
      match findSub s ['>'] with
      | none => .error (.MissingClosingDelimiter 999)
      | some q =>
        match sliceR s (p + 1) q with
        | none => .panic
        | some header =>
          match splitUnquoted header ' ' with
          | [] => .panic
          | t0 :: parts =>
            match trim t0 with
            | [] => .panic
            | c :: cs =>
              if c = '?' then loadAux fuel (s.drop (q + 1))
              else
                match parseAttrs parts [] with
                | .panic => .panic
                | .error e => .error e
                | .ok attrs =>
                  if endsW header ['/'] then
                    .ok ⟨trim (s.take p),
                         some (.mk (c :: cs) attrs [] []),
                         s.drop (q + 1)⟩
                  else
                    match findSub s ('<' :: '/' :: (c :: cs) ++ ['>']) with
                    | none => .error (.MissingClosingTag (c :: cs) 999)
                    | some ct =>
                      match sliceR s (q + 1) ct with
                      | none => .panic
                      | some ibuf =>
                        match innerLoop (loadAux fuel) fuel ibuf [] [] with
                        | .panic => .panic
                        | .error e => .error e
                        | .ok (content, nodes) =>
                          .ok ⟨trim (s.take p),
                               some (.mk (c :: cs) attrs nodes (trim content)),
                               s.drop (ct + (c :: cs).length + 3)⟩

def load_from_slice (s : LC) : Outcome Payload := loadAux (s.length + 1) s

/-- The text fragments lying directly inside an element, in document order,
together with the final text after the last child: one fragment per child
extracted from the inner slice (each fragment is the parser-reported prolog
of that child, i.e. the text before it with leading/trailing whitespace
trimmed and text before skipped `<?...>` declarations dropped), and the
final remainder kept verbatim.  Mirrors the iteration structure of the
content-gathering loop but only collects the pieces, for comparison with the
loop's accumulated content. -/
def innerFrags (parse : LC → Outcome Payload) :
    Nat → LC → Outcome (List LC × LC)
  | 0, _ => .panic
  | fuel + 1, buf =>
    if buf.length = 0 then .ok ([], buf)
    else
      match parse buf with
      | .panic => .panic
      | .error e => .error e
      | .ok pl =>
        if pl.remaining.length = buf.length then .ok ([], buf)
        else
          match innerFrags parse fuel pl.remaining with
          | .panic => .panic
          | .error e => .error e
          | .ok (fs, fin) => .ok (pl.prolog :: fs, fin)

/-- `validate_root` (src/lib.rs lines 56-67). -/
def validate_root : Outcome Payload → Outcome Node
  | .ok pl =>
    if pl.prolog.length = 0 then .ok (pl.node.getD (.mk [] [] [] []))
    else .error (.ContentOutsideRoot 999)
  | .error e => .error e
  | .panic => .panic

/-- `from_string` (src/lib.rs lines 75-77).  `from_file` differs only in
obtaining the text from the filesystem. -/
def from_string (s : LC) : Outcome Node := validate_root (load_from_slice s)

/-- Attribute rendering ` key="value"` shared by both serializers. -/
def renderAttrs : List (LC × LC) → LC
  | [] => []
  | (k, v) :: rest => ' ' :: k ++ '=' :: '"' :: v ++ '"' :: renderAttrs rest

mutual

/-- `impl Display for Node` (src/lib.rs lines 300-335): compact rendering. -/
def displayNode : Node → LC
  | .mk tag attrs nodes content =>
    if tag = [] then []
    else if nodes.length + content.length = 0 then
      '<' :: tag ++ renderAttrs attrs ++ ['/', '>']
    else
      '<' :: tag ++ renderAttrs attrs ++ ['>']
        ++ displayGroups nodes ++ content
        ++ '<' :: '/' :: tag ++ ['>']

def displayGroups : List (LC × List Node) → LC
  | [] => []
  | (_, ns) :: rest => displayList ns ++ displayGroups rest

def displayList : List Node → LC
  | [] => []
  | n :: rest => displayNode n ++ displayList rest

end

def indentOf (depth : Nat) : LC := List.replicate (depth * 4) ' '

mutual

/-- `to_string_pretty`'s inner `internal` function (src/lib.rs lines 253-297). -/
def prettyAux : Node → Nat → LC
  | .mk tag attrs nodes content, depth =>
    if tag = [] then []
    else if nodes.length + content.length = 0 then
      indentOf depth ++ '<' :: tag ++ renderAttrs attrs ++ ['/', '>', '\n']
    else
      indentOf depth ++ '<' :: tag ++ renderAttrs attrs ++ ['>']
        ++ (if nodes.length = 0 then [] else ['\n'])
        ++ prettyGroups nodes (depth + 1) ++ content
        ++ (if nodes.length = 0 then [] else indentOf depth)
        ++ '<' :: '/' :: tag ++ ['>', '\n']

def prettyGroups : List (LC × List Node) → Nat → LC
  | [], _ => []
  | (_, ns) :: rest, depth => prettyList ns depth ++ prettyGroups rest depth

def prettyList : List Node → Nat → LC
  | [], _ => []
  | n :: rest, depth => prettyAux n depth ++ prettyList rest depth

end

def to_string_pretty (n : Node) : LC := prettyAux n 0

/-! ### Helper lemmas -/

theorem leadsWith_single_nil (c : Char) : leadsWith [c] [] = false := rfl

theorem leadsWith_single_cons (c a : Char) (t : LC) :
    leadsWith [c] (a :: t) = if c = a then true else false := by
  simp [leadsWith]

theorem findSub_none_single {c : Char} {s : LC} (h : c ∉ s) :
    findSub s [c] = none := by
  induction s with
  | nil => rfl
  | cons a t ih =>
    have hca : c ≠ a := fun hc => h (hc ▸ List.mem_cons_self a t)
    have ht : c ∉ t := fun hm => h (List.mem_cons_of_mem a hm)
    simp [findSub, leadsWith_single_cons, hca, ih ht]

theorem findSub_isSome_single {c : Char} {s : LC} (h : c ∈ s) :
    ∃ p, findSub s [c] = some p := by
  induction s with
  | nil => exact absurd h (List.not_mem_nil c)
  | cons a t ih =>
    by_cases hca : c = a
    · exact ⟨0, by simp [findSub, leadsWith_single_cons, hca]⟩
    · obtain ⟨p, hp⟩ := ih ((List.mem_cons.mp h).resolve_left hca)
      exact ⟨p + 1, by simp [findSub, leadsWith_single_cons, hca, hp]⟩

theorem lookup_addToGroup (m : List (LC × List Node)) (t : LC) (n : Node) :
    lookupGroup (addToGroup m t n) t = some (((lookupGroup m t).getD []) ++ [n]) := by
  induction m with
  | nil => simp [addToGroup, lookupGroup]
  | cons hd tl ih =>
    obtain ⟨k, v⟩ := hd
    by_cases hk : k = t
    · simp [addToGroup, lookupGroup, hk]
    · simp [addToGroup, lookupGroup, hk, ih]

/-! ### Claim theorems -/

/-- Claim C1 (code bug): idempotence of parse∘render fails.  The tree parsed
from `<a><b></b></a>` (whose content and attribute values are trivially free
of the excluded characters) renders compactly as `<a><b/></a>`, but reparsing
that rendering yields a child group keyed `b/` — the parser absorbs the
self-closing `/` into the tag name — so the reparsed tree is not equivalent
to the original (child groups differ). -/
theorem c1_round_trip_bug :
    from_string (toL "<a><b></b></a>")
      = .ok (.mk (toL "a") [] [(toL "b", [.mk (toL "b") [] [] []])] [])
    ∧ displayNode (.mk (toL "a") [] [(toL "b", [.mk (toL "b") [] [] []])] [])
      = toL "<a><b/></a>"
    ∧ from_string (toL "<a><b/></a>")
      = .ok (.mk (toL "a") [] [(toL "b/", [.mk (toL "b/") [] [] []])] [])
    ∧ (Node.mk (toL "a") [] [(toL "b/", [.mk (toL "b/") [] [] []])] []).nodes.map Prod.fst
      ≠ (Node.mk (toL "a") [] [(toL "b", [.mk (toL "b") [] [] []])] []).nodes.map Prod.fst :=
  ⟨rfl, rfl, rfl, by decide⟩

/-- Claim C2, counterexample: non-whitespace text before a leading `<?...>`
declaration is silently discarded (the declaration branch recurses and
propagates the deeper payload, dropping the prolog), so `g<?p><a />` parses
to a tree instead of failing with `ContentOutsideRoot`. -/
theorem c2_cx :
    from_string (toL "g<?p><a />") = .ok (.mk (toL "a") [] [] [])
    ∧ (Outcome.ok (Node.mk (toL "a") [] [] []) : Outcome Node)
        ≠ .error (.ContentOutsideRoot 999) :=
  ⟨rfl, fun h => Outcome.noConfusion h⟩

/-- Claim C3, counterexample: inter-fragment whitespace is not preserved
verbatim.  For `<a>x <b></b> y</a>` the fragments directly inside `a` are
`"x "` and `" y"`; the claim predicts content `"x  y"` (verbatim
concatenation trimmed once), but the parser trims each pre-child fragment
individually and produces `"x y"`. -/
theorem c3_cx :
    from_string (toL "<a>x <b></b> y</a>")
      = .ok (.mk (toL "a") [] [(toL "b", [.mk (toL "b") [] [] []])] (toL "x y"))
    ∧ toL "x y" ≠ toL "x  y" :=
  ⟨rfl, by decide⟩

/-- Claim C4 (code bug): parsing `<a n="hi"/>` does not succeed.  Because the
self-closing `/` is glued to the final header token, the attribute token is
`n="hi"/`, whose quote check fails, so the parser returns `MissingQuotes` —
even though the crate's own `Display` serializer emits exactly this form for
a leaf node with one attribute (second conjunct). -/
theorem c4_missing_quotes_bug :
    from_string (toL "<a n=\"hi\"/>")
      = .error (.MissingQuotes (toL "n=\"hi\"/") 999)
    ∧ displayNode (.mk (toL "a") [(toL "n", toL "hi")] [] [])
      = toL "<a n=\"hi\"/>" :=
  ⟨rfl, rfl⟩

/-- Claim C5: parsing `<a><b>x</b><b>y</b></a>` yields exactly one child
group, keyed `b`, holding the `x` and `y` nodes in document order; and in
general the child-insertion operation of the parse loop appends each new
node at the end of its tag's group (so within-group order is document
order). -/
theorem c5_sibling_order :
    from_string (toL "<a><b>x</b><b>y</b></a>")
      = .ok (.mk (toL "a") []
          [(toL "b", [.mk (toL "b") [] [] (toL "x"),
                      .mk (toL "b") [] [] (toL "y")])] [])
    ∧ ∀ (m : List (LC × List Node)) (t : LC) (n : Node),
        lookupGroup (addToGroup m t n) t
          = some (((lookupGroup m t).getD []) ++ [n]) :=
  ⟨rfl, lookup_addToGroup⟩

/-- Claim C6: an input consisting only of whitespace (including the empty
input) contains no `<`, so `from_string` returns the sentinel node, and both
the compact and the pretty rendering of the sentinel are empty. -/
theorem c6_whitespace_sentinel (s : LC) (h : ∀ c ∈ s, isWs c = true) :
    from_string s = .ok (.mk [] [] [] [])
    ∧ displayNode (.mk [] [] [] []) = []
    ∧ to_string_pretty (.mk [] [] [] []) = [] := by
  have hlt : '<' ∉ s := fun hm => by simpa [isWs] using h _ hm
  have hf : findSub s ['<'] = none := findSub_none_single hlt
  refine ⟨?_, rfl, rfl⟩
  simp [from_string, load_from_slice, loadAux, hf, validate_root]

/-- Witness for C6 at the concrete input `" \n "`. -/
theorem c6_whitespace_sentinel_w :
    from_string (toL " \n ") = .ok (.mk [] [] [] []) :=
  (c6_whitespace_sentinel (toL " \n ") (by decide)).1

/-- Claim C7, counterexample: the code looks for the first `>` anywhere in
the slice, not after the first `<`.  On `">a<"` — which contains a `<` with
no `>` after it — the slice `&string[opening_del+1..closing_del]` has a
reversed range (start 3, end 0) and the parser panics instead of returning
`MissingClosingDelimiter`. -/
theorem c7_cx :
    load_from_slice (toL ">a<") = .panic
    ∧ (Outcome.panic : Outcome Payload) ≠ .error (.MissingClosingDelimiter 999) :=
  ⟨rfl, fun h => Outcome.noConfusion h⟩

/-- Claim C7 as amended: when the input contains a `<` but no `>` anywhere,
the parser (and `from_string`) returns `MissingClosingDelimiter`. -/
theorem c7_amended (s : LC) (h1 : '<' ∈ s) (h2 : '>' ∉ s) :
    load_from_slice s = .error (.MissingClosingDelimiter 999)
    ∧ from_string s = .error (.MissingClosingDelimiter 999) := by
  obtain ⟨p, hp⟩ := findSub_isSome_single h1
  have hg : findSub s ['>'] = none := findSub_none_single h2
  have hload : load_from_slice s = .error (.MissingClosingDelimiter 999) := by
    simp [load_from_slice, loadAux, hp, hg]
  exact ⟨hload, by simp [from_string, hload, validate_root]⟩

/-- Witness for C7 (amended) at the concrete input `"<a"`. -/
theorem c7_amended_w :
    load_from_slice (toL "<a") = .error (.MissingClosingDelimiter 999)
    ∧ from_string (toL "<a") = .error (.MissingClosingDelimiter 999) :=
  c7_amended (toL "<a") (by decide) (by decide)

/-- Claim C8, counterexample: the code tests `ends_with("/")` on the raw
header text without removing trailing whitespace.  For `<a / >` the header
`"a / "` ends in `/` after trailing-whitespace removal (first conjunct), so
the claim predicts a self-closing leaf; instead the parser searches for a
closing tag and fails with `MissingClosingTag` (second conjunct). -/
theorem c8_cx :
    endsW (trim (toL "a / ")) ['/'] = true
    ∧ load_from_slice (toL "<a / >") = .error (.MissingClosingTag (toL "a") 999) :=
  ⟨rfl, rfl⟩

/-- Claim C8 as amended: when the header text (between `<` and `>`) literally
ends in `/` (no whitespace removal) and the attribute tokens are collected
without error, the element is self-closing: the payload carries a leaf node
with the collected attributes, empty children and empty content, and the
remaining slice starts right after the `>`.  No closing-tag hypothesis is
needed — no closing-tag search is performed. -/
theorem c8_amended (s header t0 : LC) (parts : List LC) (p q : Nat)
    (c : Char) (cs : LC) (attrs : List (LC × LC))
    (h1 : findSub s ['<'] = some p) (h2 : findSub s ['>'] = some q)
    (hh : sliceR s (p + 1) q = some header)
    (hsp : splitUnquoted header ' ' = t0 :: parts)
    (ht : trim t0 = c :: cs) (hc : c ≠ '?')
    (ha : parseAttrs parts [] = .ok attrs)
    (he : endsW header ['/'] = true) :
    load_from_slice s
      = .ok ⟨trim (s.take p), some (.mk (c :: cs) attrs [] []), s.drop (q + 1)⟩ := by
  simp [load_from_slice, loadAux, h1, h2, hh, hsp, ht, hc, ha, he]

/-- Witness for C8 (amended) at the concrete input `<a x="1" />`. -/
theorem c8_amended_w :
    load_from_slice (toL "<a x=\"1\" />")
      = .ok ⟨[], some (.mk (toL "a") [(toL "x", toL "1")] [] []), []⟩ :=
  c8_amended (toL "<a x=\"1\" />") (toL "a x=\"1\" /") (toL "a")
    [toL "x=\"1\"", toL "/"] 0 10 'a' [] [(toL "x", toL "1")]
    rfl rfl rfl rfl rfl (by decide) rfl rfl

/-- Claim C9 (code bug): a quoted attribute value containing a space is kept
as one token by the splitter, but on the exact input `<a n="hello world"/>`
the glued self-closing `/` makes the quote check fail, so parsing returns
`MissingQuotes` instead of storing `n → hello world`.  With a space before
the `/` the same attribute parses as the claim describes (second conjunct,
showing the quoted run is indeed never split). -/
theorem c9_space_value_bug :
    from_string (toL "<a n=\"hello world\"/>")
      = .error (.MissingQuotes (toL "n=\"hello world\"/") 999)
    ∧ from_string (toL "<a n=\"hello world\" />")
      = .ok (.mk (toL "a") [(toL "n", toL "hello world")] [] []) :=
  ⟨rfl, rfl⟩

/-- Claim C10 (code bug): `from_string` is not total.  On `"><"` the first
`>` precedes the first `<`, so the header slice `&string[2..0]` has a
reversed range and the code panics; on `<a k=">` the attribute value part is
a lone `"`, which passes both quote checks and then panics in the reversed
slice `&v[2..v.len()-1]`.  The claim says a typed `Error` is always
returned. -/
theorem c10_panic_bug :
    from_string (toL "><") = .panic
    ∧ from_string (toL "<a k=\">") = .panic :=
  ⟨rfl, rfl⟩

/-- Claim C2 as amended: leading non-whitespace text is reported as
`ContentOutsideRoot` when the first `<` of the input opens a
non-declaration element and the parse of the input otherwise succeeds
(text preceding a `<?...>` declaration is instead silently discarded, and
parse errors of the element take precedence — see the counterexample). -/
theorem c2_amended (s header t0 : LC) (parts : List LC) (p q : Nat)
    (c : Char) (cs : LC) (pl : Payload)
    (h1 : findSub s ['<'] = some p) (h2 : findSub s ['>'] = some q)
    (hh : sliceR s (p + 1) q = some header)
    (hsp : splitUnquoted header ' ' = t0 :: parts)
    (ht : trim t0 = c :: cs) (hc : c ≠ '?')
    (hok : load_from_slice s = .ok pl)
    (hpro : trim (s.take p) ≠ []) :
    from_string s = .error (.ContentOutsideRoot 999) := by
  have hpl : pl.prolog = trim (s.take p) := by
    have hok' := hok
    simp only [load_from_slice, loadAux, h1, h2, hh, hsp, ht, if_neg hc] at hok'
    rcases hpa : parseAttrs parts [] with _ | e | attrs <;> simp only [hpa] at hok'
    · exact Outcome.noConfusion hok'
    · exact Outcome.noConfusion hok'
    · by_cases hend : endsW header ['/'] = true
      · simp only [hend, if_true] at hok'
        injection hok' with h
        rw [← h]
      · simp only [if_neg hend] at hok'
        rcases hct : findSub s ('<' :: '/' :: c :: cs ++ ['>']) with _ | ct <;>
          simp only [hct] at hok'
        · exact Outcome.noConfusion hok'
        · rcases hib : sliceR s (q + 1) ct with _ | ibuf <;> simp only [hib] at hok'
          · exact Outcome.noConfusion hok'
          · rcases hil : innerLoop (loadAux s.length) s.length ibuf [] []
              with _ | e | cn <;> simp only [hil] at hok'
            · exact Outcome.noConfusion hok'
            · exact Outcome.noConfusion hok'
            · obtain ⟨content, nodes⟩ := cn
              injection hok' with h
              rw [← h]
  have hfs : from_string s = validate_root (.ok pl) := by rw [from_string, hok]
  rw [hfs]
  simp only [validate_root]
  rw [if_neg]
  rw [hpl]
  exact fun h => hpro (List.length_eq_zero.mp h)

/-- The content accumulated by the parse loop equals the concatenation of
the collected fragments followed by the final remainder. -/
theorem innerLoop_frags (parse : LC → Outcome Payload) :
    ∀ (fuel : Nat) (buf content : LC) (nodes : List (LC × List Node))
      (c : LC) (ns : List (LC × List Node)),
      innerLoop parse fuel buf content nodes = .ok (c, ns) →
      ∃ fs fin, innerFrags parse fuel buf = .ok (fs, fin)
        ∧ c = content ++ (joinL fs ++ fin) := by
  intro fuel
  induction fuel with
  | zero => intro buf content nodes c ns h; exact Outcome.noConfusion h
  | succ fuel ih =>
    intro buf content nodes c ns h
    by_cases h0 : buf = []
    · subst h0
      simp only [innerLoop, List.length_nil, if_pos rfl, List.append_nil] at h
      injection h with h1
      injection h1 with hc hn
      refine ⟨[], [], by simp [innerFrags], ?_⟩
      rw [← hc]; simp [joinL]
    · have h0' : ¬ buf.length = 0 := fun hl => h0 (List.length_eq_zero.mp hl)
      simp only [innerLoop] at h
      rw [if_neg h0'] at h
      rcases hp : parse buf with _ | e | pl <;> simp only [hp] at h
      · exact Outcome.noConfusion h
      · exact Outcome.noConfusion h
      · by_cases hrem : pl.remaining.length = buf.length
        · rw [if_pos hrem] at h
          injection h with h1
          injection h1 with hc hn
          refine ⟨[], buf, ?_, ?_⟩
          · simp only [innerFrags]
            rw [if_neg h0']
            simp only [hp]
            rw [if_pos hrem]
          · rw [← hc]; simp [joinL]
        · rw [if_neg hrem] at h
          obtain ⟨fs, fin, hfr, hcc⟩ := ih pl.remaining (content ++ pl.prolog) _ c ns h
          refine ⟨pl.prolog :: fs, fin, ?_, ?_⟩
          · simp only [innerFrags]
            rw [if_neg h0']
            simp only [hp]
            rw [if_neg hrem]
            simp only [hfr]
          · rw [hcc]; simp [joinL, List.append_assoc]

/-- Claim C3 as amended: for every successfully parsed element (one whose
header does not end in `/`), the node's content equals the concatenation, in
document order, of the text fragments directly inside the element — each
fragment individually trimmed of leading/trailing whitespace as the parser
reports it (and with text before skipped `<?...>` declarations dropped) —
followed by the final fragment after the last child verbatim, the whole
trimmed once at the end.  Only the final fragment's whitespace survives into
the last trim; whitespace around child elements is not preserved verbatim. -/
theorem c3_amended (s header t0 : LC) (parts : List LC) (p q ct : Nat)
    (c : Char) (cs : LC) (attrs : List (LC × LC)) (ibuf cont : LC)
    (nodes : List (LC × List Node))
    (h1 : findSub s ['<'] = some p) (h2 : findSub s ['>'] = some q)
    (hh : sliceR s (p + 1) q = some header)
    (hsp : splitUnquoted header ' ' = t0 :: parts)
    (ht : trim t0 = c :: cs) (hc : c ≠ '?')
    (ha : parseAttrs parts [] = .ok attrs)
    (hend : ¬ endsW header ['/'] = true)
    (hct : findSub s ('<' :: '/' :: c :: cs ++ ['>']) = some ct)
    (hib : sliceR s (q + 1) ct = some ibuf)
    (hil : innerLoop (loadAux s.length) s.length ibuf [] [] = .ok (cont, nodes)) :
    ∃ fs fin, innerFrags (loadAux s.length) s.length ibuf = .ok (fs, fin)
      ∧ cont = joinL fs ++ fin
      ∧ load_from_slice s
          = .ok ⟨trim (s.take p),
                 some (.mk (c :: cs) attrs nodes (trim (joinL fs ++ fin))),
                 s.drop (ct + (c :: cs).length + 3)⟩ := by
  obtain ⟨fs, fin, hfr, hcc⟩ :=
    innerLoop_frags (loadAux s.length) s.length ibuf [] [] cont nodes hil
  have hcc' : cont = joinL fs ++ fin := by simpa using hcc
  refine ⟨fs, fin, hfr, hcc', ?_⟩
  simp only [load_from_slice, loadAux, h1, h2, hh, hsp, ht, if_neg hc, ha,
    if_neg hend, hct, hib, hil]
  rw [← hcc']

/-- Witness for C3 (amended) at the concrete input `<a>x <b></b> y</a>`:
the fragments are `"x"` (trimmed from `"x "`) and the verbatim final
fragment `" y"`, so the content is `"x y"`. -/
theorem c3_amended_w :
    ∃ fs fin,
      innerFrags (loadAux (toL "<a>x <b></b> y</a>").length)
          (toL "<a>x <b></b> y</a>").length (toL "x <b></b> y") = .ok (fs, fin)
      ∧ toL "x y" = joinL fs ++ fin
      ∧ load_from_slice (toL "<a>x <b></b> y</a>")
          = .ok ⟨trim ((toL "<a>x <b></b> y</a>").take 0),
                 some (.mk ('a' :: []) [] [(toL "b", [.mk (toL "b") [] [] []])]
                   (trim (joinL fs ++ fin))),
                 (toL "<a>x <b></b> y</a>").drop (14 + ('a' :: []).length + 3)⟩ :=
  c3_amended (toL "<a>x <b></b> y</a>") (toL "a") (toL "a") [] 0 2 14 'a' []
    [] (toL "x <b></b> y") (toL "x y") [(toL "b", [.mk (toL "b") [] [] []])]
    rfl rfl rfl rfl rfl (by decide) rfl (by decide) rfl rfl rfl

/-- Witness for C2 (amended) at the concrete input `x<a />`. -/
theorem c2_amended_w :
    from_string (toL "x<a />") = .error (.ContentOutsideRoot 999) :=
  c2_amended (toL "x<a />") (toL "a /") (toL "a") [toL "/"] 1 5 'a' []
    ⟨toL "x", some (.mk (toL "a") [] [] []), []⟩
    rfl rfl rfl rfl rfl (by decide) rfl (by decide)

end SimpleXml
